import Mathlib

set_option autoImplicit false

/-!
Shallow embedding of the libconf library (`libconf.c`, header
`include/libconf.h`): a line-oriented parser for `key=value` configuration
files and its typed accessor layer, together with theorems settling the
specification's claims about it.

The repository carries two revisions of `libconf.c`.  This embedding follows
the revision the specification describes (the one shipped next to the
project Makefile): the loader trims the key in place with a `key` pointer
initialised once outside the `fgets` loop, stores every whole number as
`CONF_LONG`, and strips leading whitespace/`'='` and trailing whitespace in
the string branch; `conf_get_int` accepts both `CONF_INT` and `CONF_LONG`
entries.  (The older revision under `source/` differs only in splitting
`CONF_INT`/`CONF_LONG` at `INT_MAX`, not trimming keys, and copying string
values untrimmed; every claim-relevant behaviour proved or refuted below —
comment/delimiter handling, type inference on the untrimmed tail,
`conf_get_float`'s double branch, `conf_get_pair`'s scan, teardown, and the
allocation-failure paths — is common to both except where a theorem's doc
comment says otherwise.)

Modelling conventions:
* C strings are `List Char`; a NUL terminator is written `'\x00'` where the
  code's pointer arithmetic can reach it.
* `double` values are modelled as exact rationals (`ℚ`): the loader only ever
  parses decimal literals and compares the parsed value with its integer
  truncation, and every concrete input used below is exactly representable,
  so binary floating-point rounding is never observable in the statements
  proved here.  The `(float)` narrowing conversion is likewise modelled as
  the identity on `ℚ` (`floatOfDouble`), faithful on values exactly
  representable in binary32, which covers all inputs used below.
* `strtod` is modelled on decimal forms (optional whitespace, sign, digits
  with an optional radix point, optional decimal exponent); the hexadecimal,
  `inf` and `nan` forms of C17 `strtod` are outside the model.  When no
  conversion is performed the model returns value `0` with `0` characters
  consumed, exactly as `strtod` then sets `end = nptr`.
* `size_t` underflow in the C source (possible only for lines whose key or
  value trims to nothing, paths that read out of bounds and are undefined
  behaviour in C) is modelled by `Nat` truncated subtraction and by stopping
  the trailing-whitespace scans at length 0; no theorem below depends on
  those inputs.
-/

namespace Libconf

/-- C `isspace` in the C locale: space, tab, newline, vertical tab,
form feed, carriage return. -/
def isspace (c : Char) : Bool :=
  c == ' ' || c == '\t' || c == '\n' || c == '\x0b' || c == '\x0c' || c == '\r'

/-- C `isdigit`. -/
def isdigit (c : Char) : Bool :=
  '0' ≤ c && c ≤ '9'

/-- Maximum stored key length (`MAX_KEY_LEN` in `libconf.h`). -/
def MAX_KEY_LEN : Nat := 128

/-- Maximum stored value length (`MAX_VAL_LEN` in `libconf.h`). -/
def MAX_VAL_LEN : Nat := 256

/-- The `conf_type` enumeration of `libconf.h`. -/
inductive conf_type where
  | CONF_INT
  | CONF_LONG
  | CONF_FLOAT
  | CONF_DOUBLE
  | CONF_STRING
  | CONF_CHAR
deriving DecidableEq

/-- The `conf_value` union of `libconf.h`.  In the embedding the union is a
sum; reading a member other than the one last written (a type pun the C code
never performs on well-formed stores) is modelled by the `as*` projections
below returning a junk default. -/
inductive conf_value where
  | ival (i : Int)
  | lval (l : Int)
  | fval (f : ℚ)
  | dval (d : ℚ)
  | str (s : List Char)
  | cval (c : Char)
deriving DecidableEq

/-- Reading the `ival` member of the union. -/
def conf_value.asIval : conf_value → Int
  | .ival i => i
  | _ => 0

/-- Reading the `lval` member of the union. -/
def conf_value.asLval : conf_value → Int
  | .lval l => l
  | _ => 0

/-- Reading the `fval` member of the union. -/
def conf_value.asFval : conf_value → ℚ
  | .fval f => f
  | _ => 0

/-- Reading the `dval` member of the union. -/
def conf_value.asDval : conf_value → ℚ
  | .dval d => d
  | _ => 0

/-- Reading the `str` member of the union. -/
def conf_value.asStr : conf_value → List Char
  | .str s => s
  | _ => []

/-- The `conf_pair` struct of `libconf.h`: one stored key/value pair. -/
structure conf_pair where
  key : List Char
  type : conf_type
  value : conf_value
deriving DecidableEq

/-- The `conf_data` struct of `libconf.h`.  The C struct holds a pointer
`pairs` and a `count`; the embedding keeps the array as a list (`count` is
its length, and `pairs == NULL` corresponds to the empty list, which is the
only shape `conf_load` ever produces for an empty store). -/
structure conf_data where
  pairs : List conf_pair
deriving DecidableEq

open conf_type conf_value

/-- Value of a digit string read most-significant first. -/
def digitsVal (ds : List Char) : Nat :=
  ds.foldl (fun a c => 10 * a + (c.toNat - '0'.toNat)) 0

/-- Model of C `strtod` on decimal forms: returns the parsed value and the
number of characters consumed (the offset of `end` from the start of the
input).  Leading whitespace is skipped, then an optional sign, a nonempty
digit sequence optionally containing one radix point, and an optional
exponent part (consumed only when at least one exponent digit follows).
When the subject sequence is empty or invalid, no conversion is performed:
the result is `(0, 0)` — `strtod` sets `end` back to the original pointer. -/
def strtod (s : List Char) : ℚ × Nat :=
  let ws := (s.takeWhile isspace).length
  let t0 := s.drop ws
  let sgn : Int := if t0.head? = some '-' then -1 else 1
  let sLen : Nat := if t0.head? = some '-' || t0.head? = some '+' then 1 else 0
  let t1 := t0.drop sLen
  let ds := t1.takeWhile isdigit
  let t2 := t1.drop ds.length
  let hasDot := t2.head? = some '.'
  let dotLen : Nat := if hasDot then 1 else 0
  let fs := if hasDot then (t2.drop 1).takeWhile isdigit else []
  if ds.length + fs.length = 0 then ((0 : ℚ), 0)
  else
    let t3 := t2.drop (dotLen + fs.length)
    let isE := t3.head? = some 'e' || t3.head? = some 'E'
    let t4 := t3.drop 1
    let eNeg := t4.head? = some '-'
    let esLen : Nat := if t4.head? = some '-' || t4.head? = some '+' then 1 else 0
    let eds := if isE then (t4.drop esLen).takeWhile isdigit else []
    let expLen : Nat := if isE && eds.length != 0 then 1 + esLen + eds.length else 0
    let expVal : Int := if isE && eds.length != 0 then
        (if eNeg then -(digitsVal eds : Int) else (digitsVal eds : Int)) else 0
    let mant : Int := sgn * (digitsVal (ds ++ fs) : Int)
    let e10 : Int := expVal - (fs.length : Int)
    let q : ℚ := if 0 ≤ e10 then Rat.divInt (mant * 10 ^ e10.toNat) 1
      else Rat.divInt mant (10 ^ (-e10).toNat)
    (q, ws + sLen + ds.length + dotLen + fs.length + expLen)

/-- The trailing-whitespace trim loop `while (isspace(x[len - 1])) len--;`
of `conf_load`, reading characters of `s` through `getD` (bytes past the
modelled region read as NUL, which is not whitespace).  The C loop does not
guard `len = 0` (it would read `x[-1]`, undefined behaviour); the model
stops there. -/
def trimTrail (s : List Char) : Nat → Nat
  | 0 => 0
  | n + 1 => if isspace (s.getD n '\x00') then trimTrail s n else n + 1

/-- Type inference on the text `t` that follows the first `'='` of a line,
from `conf_load` in `libconf.c`:
`strtod` is applied to `t`; if `end` then points at the line terminator
(`'\n'` or NUL) the value is numeric — a whole value (`(long long)dval ==
dval`, i.e. zero fractional part, modelled as denominator 1; the cast is
undefined behaviour outside the 64-bit range, which no theorem below
exercises) is stored as `CONF_LONG`, otherwise `CONF_DOUBLE`.  Otherwise the
value is a string: the length is capped at `MAX_VAL_LEN` before trimming,
the pointer is walked forward over whitespace and `'='` characters starting
from the delimiter itself, the length is trimmed of trailing whitespace,
and `strncpy` copies that many characters (stopping at a NUL). -/
def inferValue (t : List Char) : conf_type × conf_value :=
  let q := (strtod t).1
  let c := (strtod t).2
  let endChar := t.getD c '\x00'
  if endChar = '\n' ∨ endChar = '\x00' then
    if q.den = 1 then (CONF_LONG, .lval q.num) else (CONF_DOUBLE, .dval q)
  else
    let s0 := '=' :: t
    let len0 := min t.length MAX_VAL_LEN
    let lead := (s0.takeWhile (fun ch => isspace ch || ch == '=')).length
    let s1 := s0.drop lead
    let len := trimTrail s1 (len0 - lead)
    (CONF_STRING, .str ((s1.take len).takeWhile (fun ch => ch != '\x00')))

/-- One iteration of the `fgets` loop of `conf_load`.  `k` is the offset of
the persistent `key` pointer into the 512-byte line buffer (the C source
initialises `char* key = line;` once, outside the loop, so the offset
accumulated by the leading-whitespace strips survives into later
iterations), `buf` is the buffer contents beyond the current line (bytes
`fgets` did not overwrite; bytes never written are modelled as NUL).
Returns the new offset, the new buffer contents, and the pair produced by
the line, if any. -/
def processLine (k : Nat) (buf : List Char) (line : List Char) :
    Nat × List Char × Option conf_pair :=
  let buf' := line ++ '\x00' :: buf.drop (line.length + 1)
  if line.head? = some '#' then (k, buf', none)
  else
    let p := line.findIdx (fun c => c == '=')
    if p = line.length then (k, buf', none)
    else
      let lead := ((buf'.drop k).takeWhile isspace).length
      let k' := k + lead
      let key0 := buf'.drop k'
      let keyLen := trimTrail key0 (p - lead)
      let key := (key0.take keyLen).takeWhile (fun c => c != '\x00')
      let tv := inferValue (line.drop (p + 1))
      (k', buf', some ⟨key, tv.1, tv.2⟩)

/-- The `fgets` loop of `conf_load`, threading the persistent key-pointer
offset and line buffer, appending each produced pair (`realloc` + copy). -/
def loadLoop : List (List Char) → Nat → List Char → List conf_pair → List conf_pair
  | [], _, _, acc => acc
  | line :: rest, k, buf, acc =>
    let r := processLine k buf line
    match r.2.2 with
    | none => loadLoop rest r.1 r.2.1 acc
    | some pr => loadLoop rest r.1 r.2.1 (acc ++ [pr])

/-- `conf_load`.  The file is `none` when `fopen` fails (nonexistent path,
permission denied, ...), in which case the function returns NULL; otherwise
it is the list of lines `fgets` yields (each at most 511 characters,
including its `'\n'` when present).  This definition is the
allocation-failure-free run; allocation failure is modelled separately by
`iload` below. -/
def conf_load (file : Option (List (List Char))) : Option conf_data :=
  match file with
  | none => none
  | some lines => some ⟨loadLoop lines 0 [] []⟩

/-- `conf_get_pair`: NULL when the store, the key, or the store's pair array
is missing; otherwise a linear scan in insertion order returning the first
pair whose key is `strcmp`-equal to the requested key. -/
def conf_get_pair (data : Option conf_data) (key : Option (List Char)) :
    Option conf_pair :=
  match data, key with
  | some d, some k =>
    if d.pairs = [] then none
    else d.pairs.find? (fun p => p.key == k)
  | _, _ => none

/-- The C cast `(int)` applied to a `long long`, with gcc/clang's
implementation-defined modular wrap to 32 bits. -/
def longToInt (l : Int) : Int :=
  ((l + 2 ^ 31) % 2 ^ 32) - 2 ^ 31

/-- The C cast `(float)` applied to a `double`, modelled as the identity on
`ℚ` (exact on values representable in binary32; every concrete value used in
the theorems below is). -/
def floatOfDouble (q : ℚ) : ℚ := q

/-- `conf_get_int`: the default when the pair is absent; the stored value
for a `CONF_INT` pair; the `(int)`-cast of the stored value for a
`CONF_LONG` pair; the default for every other type. -/
def conf_get_int (data : Option conf_data) (key : Option (List Char))
    (default_value : Int) : Int :=
  match conf_get_pair data key with
  | none => default_value
  | some p =>
    match p.type with
    | CONF_INT => p.value.asIval
    | CONF_LONG => longToInt p.value.asLval
    | _ => default_value

/-- `conf_get_long`: the stored value exactly when the pair is present with
type `CONF_LONG`, else the default. -/
def conf_get_long (data : Option conf_data) (key : Option (List Char))
    (default_value : Int) : Int :=
  match conf_get_pair data key with
  | none => default_value
  | some p => if p.type = CONF_LONG then p.value.asLval else default_value

/-- `conf_get_float`: the stored value for a `CONF_FLOAT` pair; the
`(float)`-conversion of the stored value for a `CONF_DOUBLE` pair; the
default otherwise. -/
def conf_get_float (data : Option conf_data) (key : Option (List Char))
    (default_value : ℚ) : ℚ :=
  match conf_get_pair data key with
  | none => default_value
  | some p =>
    match p.type with
    | CONF_FLOAT => p.value.asFval
    | CONF_DOUBLE => floatOfDouble p.value.asDval
    | _ => default_value

/-- `conf_get_double`: the stored value exactly when the pair is present
with type `CONF_DOUBLE`, else the default. -/
def conf_get_double (data : Option conf_data) (key : Option (List Char))
    (default_value : ℚ) : ℚ :=
  match conf_get_pair data key with
  | none => default_value
  | some p => if p.type = CONF_DOUBLE then p.value.asDval else default_value

/-- `conf_get_string`: the stored buffer exactly when the pair is present
with type `CONF_STRING`, else the default. -/
def conf_get_string (data : Option conf_data) (key : Option (List Char))
    (default_value : List Char) : List Char :=
  match conf_get_pair data key with
  | none => default_value
  | some p => if p.type = CONF_STRING then p.value.asStr else default_value

/-- A stored pair together with the allocation id of its heap string
payload, for the allocation-instrumented loader below. -/
structure IPair where
  pair : conf_pair
  strId : Option Nat
deriving DecidableEq

/-- State of the allocation-instrumented `conf_load` loop.  `nextId` numbers
allocation attempts in program order (id 0 is the `conf_data` struct),
`live` lists the ids of allocations made and not yet freed, `arrId` is the
id of the current `pairs` array (`none` while `pairs == NULL`). -/
structure IState where
  nextId : Nat
  live : List Nat
  arrId : Option Nat
  pairs : List IPair
  k : Nat
  buf : List Char
deriving DecidableEq

/-- Result of the instrumented `conf_load`: `ioError` when `fopen` fails,
`fail leaked` when an allocation fails (NULL is returned and `leaked` are
the allocation ids still outstanding after the cleanup), `ok` on success. -/
inductive LoadResult where
  | ioError
  | fail (leaked : List Nat)
  | ok (pairs : List conf_pair)
deriving DecidableEq

/-- The set of allocation ids `conf_free` releases for a store with array
`arrId` and entries `pairs`: every `CONF_STRING` payload, the pair array
(`free(NULL)` is a no-op when there is none), and the struct (id 0). -/
def conf_free_ids (arrId : Option Nat) (pairs : List IPair) : List Nat :=
  pairs.filterMap (fun ip => ip.strId)
  ++ (match arrId with | some a => [a] | none => [])
  ++ [0]

/-- The allocations still live after the failure path calls
`conf_free(data)` on the store accumulated in `st`. -/
def leakedAfterFree (st : IState) : List Nat :=
  st.live.filter (fun i => decide (¬ i ∈ conf_free_ids st.arrId st.pairs))

/-- Live allocations after a successful iteration: the pair struct and (for
strings) its payload were allocated (`extra`), `realloc` released the old
array and produced `rid`, and `free(pair)` released the transient struct
`pid`. -/
def liveStep (live : List Nat) (arrOld : Option Nat) (pid : Nat)
    (extra : List Nat) (rid : Nat) : List Nat :=
  (((live ++ extra).filter (fun i => decide (¬ arrOld = some i))) ++ [rid]).filter
    (fun i => decide (¬ i = pid))

/-- The `fgets` loop of `conf_load` with allocation outcomes decided by the
oracle `ok` (indexed by allocation attempt).  Per produced pair, in program
order: `malloc` of the transient `conf_pair` (on failure: `conf_free(data)`,
return NULL — the C code allocated nothing for this line yet); `malloc` of
the string payload when the value is a string (on failure the transient pair
is not reachable from `data`, so `conf_free` cannot release it); `realloc`
of the pair array (success releases the old array; failure keeps it, and
`conf_free` releases it — the transient pair and its payload are not
reachable).  After a successful `realloc` the pair is copied into the array
and the transient struct is freed. -/
def iloop (ok : Nat → Bool) : List (List Char) → IState → LoadResult
  | [], st => .ok (st.pairs.map (fun ip => ip.pair))
  | line :: rest, st =>
    let r := processLine st.k st.buf line
    match r.2.2 with
    | none => iloop ok rest { st with k := r.1, buf := r.2.1 }
    | some pr =>
      let pid := st.nextId
      if ¬ ok pid then .fail (leakedAfterFree st)
      else if pr.type = CONF_STRING then
        let sid := pid + 1
        if ¬ ok sid then .fail (leakedAfterFree { st with live := st.live ++ [pid] })
        else
          let rid := pid + 2
          if ¬ ok rid then
            .fail (leakedAfterFree { st with live := st.live ++ [pid, sid] })
          else
            iloop ok rest
              { nextId := rid + 1
                live := liveStep st.live st.arrId pid [pid, sid] rid
                arrId := some rid
                pairs := st.pairs ++ [⟨pr, some sid⟩]
                k := r.1
                buf := r.2.1 }
      else
        let rid := pid + 1
        if ¬ ok rid then
          .fail (leakedAfterFree { st with live := st.live ++ [pid] })
        else
          iloop ok rest
            { nextId := rid + 1
              live := liveStep st.live st.arrId pid [pid] rid
              arrId := some rid
              pairs := st.pairs ++ [⟨pr, none⟩]
              k := r.1
              buf := r.2.1 }

/-- `conf_load` with explicit allocation outcomes.  When `fopen` fails the
result is `ioError` (NULL with nothing allocated).  Attempt 0 is the
`malloc` of the `conf_data` struct: on failure NULL is returned with nothing
allocated and nothing to free. -/
def iload (ok : Nat → Bool) (file : Option (List (List Char))) : LoadResult :=
  match file with
  | none => .ioError
  | some lines =>
    if ¬ ok 0 then .fail []
    else iloop ok lines ⟨1, [0], none, [], 0, []⟩

/-- Modelled from the spec: trailing-whitespace strip of a value, used as
the clean description of the loader's string trimming
(`dropTrailWs (v.dropWhile ...) = specTrimValue v`). -/
def dropTrailWs (l : List Char) : List Char :=
  (l.reverse.dropWhile isspace).reverse

/-- Modelled from the spec: "strip leading whitespace and any stray `=`
characters immediately after the delimiter, and strip trailing whitespace",
applied to the value text that follows the first `'='` (with its line
terminator already removed).  The string branch of `conf_load` is proved
below to store exactly this for every in-bounds value. -/
def specTrimValue (v : List Char) : List Char :=
  dropTrailWs (v.dropWhile (fun c => isspace c || c == '='))

/-- One release operation performed by `conf_free`. -/
inductive FreeOp where
  | releaseStr (s : List Char)
  | releasePairs
  | releaseData
deriving DecidableEq

/-- `conf_free` observed as its sequence of release operations: nothing for
a NULL store; otherwise the string payload of every `CONF_STRING` pair in
order, then the pair array, then the struct itself. -/
def conf_free (data : Option conf_data) : List FreeOp :=
  match data with
  | none => []
  | some d =>
    d.pairs.filterMap (fun p =>
      if p.type = CONF_STRING then some (FreeOp.releaseStr p.value.asStr) else none)
    ++ [FreeOp.releasePairs, FreeOp.releaseData]

/-! Helper lemmas about the trimming primitives. -/

theorem dropTrailWs_nil : dropTrailWs [] = [] := rfl

theorem dropTrailWs_append_space {l : List Char} {c : Char} (h : isspace c = true) :
    dropTrailWs (l ++ [c]) = dropTrailWs l := by
  simp [dropTrailWs, List.dropWhile_cons, h]

theorem dropTrailWs_append_keep {l : List Char} {c : Char} (h : isspace c = false) :
    dropTrailWs (l ++ [c]) = l ++ [c] := by
  simp [dropTrailWs, List.dropWhile_cons, h]

theorem dropTrailWs_append_all {l : List Char} {sp : List Char}
    (h : ∀ c ∈ sp, isspace c = true) : dropTrailWs (l ++ sp) = dropTrailWs l := by
  induction sp using List.reverseRecOn with
  | nil => simp
  | append_singleton sp' c ih =>
    rw [← List.append_assoc, dropTrailWs_append_space (h c (by simp))]
    exact ih (fun x hx => h x (by simp [hx]))

theorem dropTrailWs_eq_self {l : List Char} {c : Char}
    (h : l.getLast? = some c) (hc : isspace c = false) : dropTrailWs l = l := by
  induction l using List.reverseRecOn with
  | nil => simp at h
  | append_singleton l' c' _ =>
    have hcc : c' = c := by simpa using h
    subst hcc
    exact dropTrailWs_append_keep hc

theorem dropTrailWs_head {a : Char} {l : List Char} (h : isspace a = false) :
    (dropTrailWs (a :: l)).head? = some a := by
  induction l using List.reverseRecOn with
  | nil =>
    have h2 : dropTrailWs ([] ++ [a]) = [] ++ [a] := dropTrailWs_append_keep h
    simp only [List.nil_append] at h2
    simp [h2]
  | append_singleton l' c ih =>
    rw [show a :: (l' ++ [c]) = (a :: l') ++ [c] from (List.cons_append a l' [c]).symm]
    cases hc : isspace c with
    | false => rw [dropTrailWs_append_keep hc]; rfl
    | true => rw [dropTrailWs_append_space hc]; exact ih

theorem dropTrailWs_subset {l : List Char} : dropTrailWs l ⊆ l := by
  intro x hx
  have h1 : x ∈ l.reverse.dropWhile isspace := by simpa [dropTrailWs] using hx
  have h2 := (List.dropWhile_sublist (l := l.reverse) (p := isspace)).subset h1
  simpa using h2

theorem trimTrail_take {s : List Char} : ∀ {n : Nat}, n ≤ s.length →
    s.take (trimTrail s n) = dropTrailWs (s.take n)
  | 0, _ => by simp [trimTrail, dropTrailWs]
  | n + 1, h => by
    have hn : n < s.length := h
    have hget : s.getD n '\x00' = s.get ⟨n, hn⟩ := by
      rw [List.getD_eq_getElem?_getD, List.getElem?_eq_getElem hn]; rfl
    have htake : s.take (n + 1) = s.take n ++ [s.get ⟨n, hn⟩] := by
      rw [List.take_succ, List.getElem?_eq_getElem hn]; rfl
    rw [trimTrail, hget]
    by_cases hsp : isspace (s.get ⟨n, hn⟩) = true
    · rw [if_pos hsp, htake, dropTrailWs_append_space hsp]
      exact trimTrail_take (Nat.le_of_lt hn)
    · have hsp' : isspace (s.get ⟨n, hn⟩) = false := by simpa using hsp
      rw [if_neg hsp, htake, dropTrailWs_append_keep hsp']

theorem takeWhile_ne_nul {l : List Char} (h : ¬ '\x00' ∈ l) :
    l.takeWhile (fun c => c != '\x00') = l := by
  rw [List.takeWhile_eq_self_iff]
  intro a ha
  simp only [bne_iff_ne, ne_eq]
  exact fun hne => h (hne ▸ ha)

theorem takeWhile_append_stop {P : Char → Bool} {v u : List Char}
    (h : v.dropWhile P ≠ []) : (v ++ u).takeWhile P = v.takeWhile P := by
  induction v with
  | nil => simp [List.dropWhile] at h
  | cons a v ih =>
    cases hP : P a with
    | true =>
      rw [List.cons_append, List.takeWhile_cons_of_pos hP, List.takeWhile_cons_of_pos hP]
      rw [List.dropWhile_cons_of_pos hP] at h
      rw [ih h]
    | false =>
      rw [List.cons_append, List.takeWhile_cons_of_neg (by simp [hP]),
        List.takeWhile_cons_of_neg (by simp [hP])]

theorem drop_length_takeWhile {P : Char → Bool} {v : List Char} :
    v.drop (v.takeWhile P).length = v.dropWhile P := by
  induction v with
  | nil => simp
  | cons a v ih =>
    cases hP : P a with
    | true =>
      rw [List.takeWhile_cons_of_pos hP, List.dropWhile_cons_of_pos hP]
      simpa using ih
    | false =>
      rw [List.takeWhile_cons_of_neg (by simp [hP]), List.dropWhile_cons_of_neg (by simp [hP])]
      simp

theorem findIdx_split {K t : List Char} (hK : ¬ '=' ∈ K) :
    (K ++ '=' :: t).findIdx (fun c => c == '=') = K.length := by
  rw [List.findIdx_append]
  have hKlen : K.findIdx (fun c => c == '=') = K.length :=
    List.findIdx_eq_length.mpr (fun x hx => by
      simp only [beq_eq_false_iff_ne, ne_eq]
      exact fun he => hK (he ▸ hx))
  rw [hKlen, if_neg (by omega), List.findIdx_cons]
  simp

theorem mem_eq_iff_findIdx_lt {line : List Char} :
    '=' ∈ line ↔ line.findIdx (fun c => c == '=') < line.length := by
  rw [List.findIdx_lt_length]
  constructor
  · intro h; exact ⟨'=', h, by simp⟩
  · rintro ⟨x, hx, hbeq⟩
    have : x = '=' := by simpa using hbeq
    exact this ▸ hx

/-! Characterisation of one loop iteration on a line split at its first
delimiter. -/

theorem processLine_snd_split (k : Nat) (buf : List Char) {K t : List Char}
    (hK : ¬ '=' ∈ K) (hH : (K ++ '=' :: t).head? ≠ some '#') :
    ∃ kk, (processLine k buf (K ++ '=' :: t)).2.2 =
      some ⟨kk, (inferValue t).1, (inferValue t).2⟩ := by
  have hlen : K.length ≠ (K ++ '=' :: t).length := by simp
  have hdrop : (K ++ '=' :: t).drop (K.length + 1) = t := by
    rw [List.drop_append_eq_append_drop]
    simp
  simp only [processLine]
  rw [if_neg hH, findIdx_split hK, if_neg hlen, hdrop]
  exact ⟨_, rfl⟩

theorem processLine_none_iff {k : Nat} {buf line : List Char} :
    (processLine k buf line).2.2 = none ↔
      (line.head? = some '#' ∨ ¬ '=' ∈ line) := by
  simp only [processLine]
  by_cases hH : line.head? = some '#'
  · simp [hH]
  · rw [if_neg hH]
    by_cases hp : line.findIdx (fun c => c == '=') = line.length
    · have : ¬ '=' ∈ line := by
        intro hmem
        have := mem_eq_iff_findIdx_lt.mp hmem
        omega
      simp [hp, hH, this]
    · have hmem : '=' ∈ line := by
        have hle := @List.findIdx_le_length Char (fun c => c == '=') line
        exact mem_eq_iff_findIdx_lt.mpr (by omega)
      simp [hp, hH, hmem]

theorem inferValue_types {t : List Char} :
    (inferValue t).1 = CONF_LONG ∨ (inferValue t).1 = CONF_DOUBLE ∨
      (inferValue t).1 = CONF_STRING := by
  simp only [inferValue]
  split
  · split
    · exact Or.inl rfl
    · exact Or.inr (Or.inl rfl)
  · exact Or.inr (Or.inr rfl)

theorem processLine_some_types {k : Nat} {buf line : List Char} {pr : conf_pair}
    (h : (processLine k buf line).2.2 = some pr) :
    pr.type = CONF_LONG ∨ pr.type = CONF_DOUBLE ∨ pr.type = CONF_STRING := by
  simp only [processLine] at h
  by_cases hH : line.head? = some '#'
  · simp [hH] at h
  · rw [if_neg hH] at h
    by_cases hp : line.findIdx (fun c => c == '=') = line.length
    · simp [hp] at h
    · rw [if_neg hp] at h
      simp only [Option.some.injEq] at h
      rw [← h]
      exact inferValue_types

theorem inferValue_string {v : List Char}
    (hnul : ¬ '\x00' ∈ v)
    (hstop : v.dropWhile (fun ch => isspace ch || ch == '=') ≠ [])
    (hlen : v.length + 1 ≤ MAX_VAL_LEN)
    (hend : ¬ ((v ++ ['\n']).getD (strtod (v ++ ['\n'])).2 '\x00' = '\n' ∨
               (v ++ ['\n']).getD (strtod (v ++ ['\n'])).2 '\x00' = '\x00')) :
    inferValue (v ++ ['\n']) = (CONF_STRING, .str (specTrimValue v)) := by
  have hlensum : (v.takeWhile (fun ch => isspace ch || ch == '=')).length
      + (v.dropWhile (fun ch => isspace ch || ch == '=')).length = v.length := by
    conv_rhs => rw [← List.takeWhile_append_dropWhile
      (p := fun ch => isspace ch || ch == '=') (l := v)]
    rw [List.length_append]
  have hLle : (v.takeWhile (fun ch => isspace ch || ch == '=')).length ≤ v.length := by
    omega
  have h1 : ('=' :: (v ++ ['\n'])).takeWhile (fun ch => isspace ch || ch == '=')
      = '=' :: v.takeWhile (fun ch => isspace ch || ch == '=') := by
    rw [List.takeWhile_cons_of_pos (by decide), takeWhile_append_stop hstop]
  have h2 : ('=' :: (v ++ ['\n'])).drop
        ('=' :: v.takeWhile (fun ch => isspace ch || ch == '=')).length
      = v.dropWhile (fun ch => isspace ch || ch == '=') ++ ['\n'] := by
    rw [List.length_cons, List.drop_succ_cons, List.drop_append_of_le_length hLle,
      drop_length_takeWhile]
  have h3 : min (v ++ ['\n']).length MAX_VAL_LEN
      - ('=' :: v.takeWhile (fun ch => isspace ch || ch == '=')).length
      = (v.dropWhile (fun ch => isspace ch || ch == '=')).length := by
    have hmin : min (v ++ ['\n']).length MAX_VAL_LEN = v.length + 1 := by
      simp only [List.length_append, List.length_cons, List.length_nil]
      exact Nat.min_eq_left (by simpa using hlen)
    rw [hmin, List.length_cons]
    omega
  have h4 : (v.dropWhile (fun ch => isspace ch || ch == '=') ++ ['\n']).take
      (trimTrail (v.dropWhile (fun ch => isspace ch || ch == '=') ++ ['\n'])
        (v.dropWhile (fun ch => isspace ch || ch == '=')).length)
      = specTrimValue v := by
    rw [trimTrail_take (by simp), List.take_left]
    rfl
  have h5 : ¬ '\x00' ∈ specTrimValue v := fun hx => hnul
    ((List.dropWhile_sublist _).subset (dropTrailWs_subset hx))
  simp only [inferValue]
  rw [if_neg hend, h1, h2, h3, h4, takeWhile_ne_nul h5]

theorem processLine_key_zero (buf sp1 kt sp2 t : List Char) {c0 cl : Char}
    (h1 : ∀ c ∈ sp1, isspace c = true) (h2 : ∀ c ∈ sp2, isspace c = true)
    (hhd : kt.head? = some c0) (hhd' : isspace c0 = false)
    (hlast : kt.getLast? = some cl) (hlast' : isspace cl = false)
    (hnul : ¬ '\x00' ∈ kt) (hkeq : ¬ '=' ∈ kt)
    (hH : ((sp1 ++ kt ++ sp2) ++ '=' :: t).head? ≠ some '#') :
    (processLine 0 buf ((sp1 ++ kt ++ sp2) ++ '=' :: t)).2.2 =
      some ⟨kt, (inferValue t).1, (inferValue t).2⟩ := by
  obtain ⟨kt', rfl⟩ : ∃ kt', kt = c0 :: kt' := by
    cases kt with
    | nil => simp at hhd
    | cons a l =>
      have ha : a = c0 := by simpa using hhd
      exact ⟨l, by rw [ha]⟩
  have hK : ¬ '=' ∈ (sp1 ++ (c0 :: kt') ++ sp2) := by
    intro hm
    rcases List.mem_append.mp hm with hm' | hsp2
    · rcases List.mem_append.mp hm' with hsp1 | hkt
      · exact absurd (h1 _ hsp1) (by decide)
      · exact hkeq hkt
    · exact absurd (h2 _ hsp2) (by decide)
  have hlen : (sp1 ++ (c0 :: kt') ++ sp2).length
      ≠ ((sp1 ++ (c0 :: kt') ++ sp2) ++ '=' :: t).length := by simp
  have hdrop : ((sp1 ++ (c0 :: kt') ++ sp2) ++ '=' :: t).drop
      ((sp1 ++ (c0 :: kt') ++ sp2).length + 1) = t := by
    rw [List.drop_append_eq_append_drop]
    simp
  simp only [processLine]
  rw [if_neg hH, findIdx_split hK, if_neg hlen, hdrop]
  -- the key computation
  have hbuf : ((sp1 ++ (c0 :: kt') ++ sp2) ++ '=' :: t) ++
        '\x00' :: buf.drop ((((sp1 ++ (c0 :: kt') ++ sp2) ++ '=' :: t)).length + 1)
      = sp1 ++ ((c0 :: kt') ++ (sp2 ++ '=' :: t ++
        '\x00' :: buf.drop ((((sp1 ++ (c0 :: kt') ++ sp2) ++ '=' :: t)).length + 1))) := by
    simp [List.append_assoc]
  rw [hbuf]
  have hlead : ((sp1 ++ ((c0 :: kt') ++ (sp2 ++ '=' :: t ++
        '\x00' :: buf.drop ((((sp1 ++ (c0 :: kt') ++ sp2) ++ '=' :: t)).length + 1)))).drop
        0).takeWhile isspace = sp1 := by
    rw [List.drop_zero, List.takeWhile_append_of_pos h1, List.cons_append,
      List.takeWhile_cons_of_neg (show ¬ isspace c0 = true by simp [hhd'])]
    simp
  rw [hlead]
  have hdropk : (sp1 ++ ((c0 :: kt') ++ (sp2 ++ '=' :: t ++
        '\x00' :: buf.drop ((((sp1 ++ (c0 :: kt') ++ sp2) ++ '=' :: t)).length + 1)))).drop
        (0 + sp1.length)
      = (c0 :: kt') ++ (sp2 ++ '=' :: t ++
        '\x00' :: buf.drop ((((sp1 ++ (c0 :: kt') ++ sp2) ++ '=' :: t)).length + 1)) := by
    rw [Nat.zero_add, List.drop_left]
  rw [hdropk]
  have hsub : (sp1 ++ (c0 :: kt') ++ sp2).length - sp1.length
      = ((c0 :: kt') ++ sp2).length := by
    simp only [List.length_append]
    omega
  rw [hsub]
  have htrim : ((c0 :: kt') ++ (sp2 ++ '=' :: t ++
        '\x00' :: buf.drop ((((sp1 ++ (c0 :: kt') ++ sp2) ++ '=' :: t)).length + 1))).take
      (trimTrail ((c0 :: kt') ++ (sp2 ++ '=' :: t ++
        '\x00' :: buf.drop ((((sp1 ++ (c0 :: kt') ++ sp2) ++ '=' :: t)).length + 1)))
        ((c0 :: kt') ++ sp2).length)
      = c0 :: kt' := by
    rw [trimTrail_take (by simp)]
    have hre : (c0 :: kt') ++ (sp2 ++ '=' :: t ++
          '\x00' :: buf.drop ((((sp1 ++ (c0 :: kt') ++ sp2) ++ '=' :: t)).length + 1))
        = ((c0 :: kt') ++ sp2) ++ ('=' :: t ++
          '\x00' :: buf.drop ((((sp1 ++ (c0 :: kt') ++ sp2) ++ '=' :: t)).length + 1)) := by
      simp [List.append_assoc]
    rw [hre, List.take_left, dropTrailWs_append_all h2, dropTrailWs_eq_self hlast hlast']
  rw [htrim, takeWhile_ne_nul hnul]

theorem inferValue_whole {t : List Char}
    (h : t.getD (strtod t).2 '\x00' = '\n' ∨ t.getD (strtod t).2 '\x00' = '\x00') :
    inferValue t =
      if (strtod t).1.den = 1 then (CONF_LONG, .lval (strtod t).1.num)
      else (CONF_DOUBLE, .dval (strtod t).1) := by
  simp only [inferValue]
  rw [if_pos h]

/-- Variant of `processLine_key_zero` that stops before the trailing trim:
the stored key is the trailing-whitespace trim of everything between the
leading whitespace and the delimiter, cut at a NUL. -/
theorem processLine_key_zero' (buf sp1 kb t : List Char) {c0 : Char}
    (h1 : ∀ c ∈ sp1, isspace c = true)
    (hhd : kb.head? = some c0) (hhd' : isspace c0 = false)
    (hkeq : ¬ '=' ∈ kb)
    (hH : ((sp1 ++ kb) ++ '=' :: t).head? ≠ some '#') :
    (processLine 0 buf ((sp1 ++ kb) ++ '=' :: t)).2.2 =
      some ⟨(dropTrailWs kb).takeWhile (fun c => c != '\x00'),
        (inferValue t).1, (inferValue t).2⟩ := by
  obtain ⟨kb', rfl⟩ : ∃ kb', kb = c0 :: kb' := by
    cases kb with
    | nil => simp at hhd
    | cons a l =>
      have ha : a = c0 := by simpa using hhd
      exact ⟨l, by rw [ha]⟩
  have hK : ¬ '=' ∈ (sp1 ++ (c0 :: kb')) := by
    intro hm
    rcases List.mem_append.mp hm with hsp1 | hkb
    · exact absurd (h1 _ hsp1) (by decide)
    · exact hkeq hkb
  have hlen : (sp1 ++ (c0 :: kb')).length
      ≠ ((sp1 ++ (c0 :: kb')) ++ '=' :: t).length := by simp
  have hdrop : ((sp1 ++ (c0 :: kb')) ++ '=' :: t).drop
      ((sp1 ++ (c0 :: kb')).length + 1) = t := by
    rw [List.drop_append_eq_append_drop]
    simp
  simp only [processLine]
  rw [if_neg hH, findIdx_split hK, if_neg hlen, hdrop]
  have hbuf : ((sp1 ++ (c0 :: kb')) ++ '=' :: t) ++
        '\x00' :: buf.drop ((((sp1 ++ (c0 :: kb')) ++ '=' :: t)).length + 1)
      = sp1 ++ ((c0 :: kb') ++ ('=' :: t ++
        '\x00' :: buf.drop ((((sp1 ++ (c0 :: kb')) ++ '=' :: t)).length + 1))) := by
    simp [List.append_assoc]
  rw [hbuf]
  have hlead : ((sp1 ++ ((c0 :: kb') ++ ('=' :: t ++
        '\x00' :: buf.drop ((((sp1 ++ (c0 :: kb')) ++ '=' :: t)).length + 1)))).drop
        0).takeWhile isspace = sp1 := by
    rw [List.drop_zero, List.takeWhile_append_of_pos h1, List.cons_append,
      List.takeWhile_cons_of_neg (show ¬ isspace c0 = true by simp [hhd'])]
    simp
  rw [hlead]
  have hdropk : (sp1 ++ ((c0 :: kb') ++ ('=' :: t ++
        '\x00' :: buf.drop ((((sp1 ++ (c0 :: kb')) ++ '=' :: t)).length + 1)))).drop
        (0 + sp1.length)
      = (c0 :: kb') ++ ('=' :: t ++
        '\x00' :: buf.drop ((((sp1 ++ (c0 :: kb')) ++ '=' :: t)).length + 1)) := by
    rw [Nat.zero_add, List.drop_left]
  rw [hdropk]
  have hsub : (sp1 ++ (c0 :: kb')).length - sp1.length = (c0 :: kb').length := by
    simp only [List.length_append]
    omega
  rw [hsub]
  have htrim : ((c0 :: kb') ++ ('=' :: t ++
        '\x00' :: buf.drop ((((sp1 ++ (c0 :: kb')) ++ '=' :: t)).length + 1))).take
      (trimTrail ((c0 :: kb') ++ ('=' :: t ++
        '\x00' :: buf.drop ((((sp1 ++ (c0 :: kb')) ++ '=' :: t)).length + 1)))
        (c0 :: kb').length)
      = dropTrailWs (c0 :: kb') := by
    rw [trimTrail_take (by simp), List.take_left]
  rw [htrim]

/-- Split a list at its first `'='`. -/
theorem first_eq_split {l : List Char} (h : '=' ∈ l) :
    ∃ K t, l = K ++ '=' :: t ∧ ¬ '=' ∈ K := by
  induction l with
  | nil => simp at h
  | cons a l ih =>
    by_cases ha : a = '='
    · exact ⟨[], l, by rw [ha]; rfl, by simp⟩
    · have h' : '=' ∈ l := by
        rcases List.mem_cons.mp h with h0 | h0
        · exact absurd h0.symm ha
        · exact h0
      obtain ⟨K, t, rfl, hK⟩ := ih h'
      exact ⟨a :: K, t, rfl, by
        intro hm
        rcases List.mem_cons.mp hm with h0 | h0
        · exact ha h0.symm
        · exact hK h0⟩

theorem takeWhile_head {P : Char → Bool} {l : List Char} {a : Char}
    (h : l.head? = some a) (hP : P a = true) :
    (l.takeWhile P).head? = some a := by
  cases l with
  | nil => simp at h
  | cons b l =>
    have hb : b = a := by simpa using h
    subst hb
    rw [List.takeWhile_cons_of_pos hP]
    rfl

/-! Lemmas about the whole load loop. -/

theorem loadLoop_length : ∀ (lines : List (List Char)) (k : Nat) (buf : List Char)
    (acc : List conf_pair),
    (loadLoop lines k buf acc).length = acc.length +
      (lines.filter (fun l => decide (¬ l.head? = some '#' ∧ '=' ∈ l))).length
  | [], _, _, acc => by simp [loadLoop]
  | line :: rest, k, buf, acc => by
    by_cases hP : ¬ line.head? = some '#' ∧ '=' ∈ line
    · have hsome : (processLine k buf line).2.2 ≠ none := by
        rw [ne_eq, processLine_none_iff]
        push_neg
        exact ⟨hP.1, hP.2⟩
      obtain ⟨pr, hpr⟩ := Option.ne_none_iff_exists'.mp hsome
      rw [loadLoop, hpr]
      rw [loadLoop_length rest _ _ (acc ++ [pr])]
      rw [List.filter_cons_of_pos (by simpa using hP)]
      simp
      omega
    · have hnone : (processLine k buf line).2.2 = none := by
        rw [processLine_none_iff]
        rcases Decidable.not_and_iff_or_not.mp hP with h | h
        · exact Or.inl (Decidable.not_not.mp h)
        · exact Or.inr h
      rw [loadLoop, hnone]
      rw [loadLoop_length rest _ _ acc]
      rw [List.filter_cons_of_neg (by simpa using hP)]

theorem loadLoop_types : ∀ (lines : List (List Char)) (k : Nat) (buf : List Char)
    (acc : List conf_pair),
    (∀ p ∈ acc, p.type = CONF_LONG ∨ p.type = CONF_DOUBLE ∨ p.type = CONF_STRING) →
    ∀ p ∈ loadLoop lines k buf acc,
      p.type = CONF_LONG ∨ p.type = CONF_DOUBLE ∨ p.type = CONF_STRING
  | [], _, _, _, hacc => by
    intro p hp
    exact hacc p (by simpa [loadLoop] using hp)
  | line :: rest, k, buf, acc, hacc => by
    intro p hp
    rw [loadLoop] at hp
    cases hres : (processLine k buf line).2.2 with
    | none =>
      rw [hres] at hp
      exact loadLoop_types rest _ _ acc hacc p hp
    | some pr =>
      rw [hres] at hp
      refine loadLoop_types rest _ _ (acc ++ [pr]) ?_ p hp
      intro q hq
      rcases List.mem_append.mp hq with hq | hq
      · exact hacc q hq
      · have : q = pr := by simpa using hq
        exact this ▸ processLine_some_types hres

/-- First-match characterisation of the linear scan in `conf_get_pair`. -/
theorem find?_first_match : ∀ (l : List conf_pair) (key : List Char) (i : Nat)
    (hi : i < l.length), (l.get ⟨i, hi⟩).key = key →
    (∀ j (hj : j < i), (l.get ⟨j, Nat.lt_trans hj hi⟩).key ≠ key) →
    l.find? (fun p => p.key == key) = some (l.get ⟨i, hi⟩)
  | [], _, i, hi, _, _ => absurd hi (by simp)
  | p :: l, key, 0, _, hkey, _ => by
    rw [List.find?_cons_of_pos _ (by simpa using hkey)]
    rfl
  | p :: l, key, i + 1, hi, hkey, hfirst => by
    have hp0 : p.key ≠ key := by
      have := hfirst 0 (Nat.succ_pos i)
      simpa using this
    rw [List.find?_cons_of_neg _ (by simpa using hp0)]
    exact find?_first_match l key i (by simpa using Nat.lt_of_succ_lt_succ hi)
      hkey (fun j hj => hfirst (j + 1) (Nat.succ_lt_succ hj))

/-! Lemmas about the allocation-instrumented loader. -/

/-- Invariant of the instrumented load loop: every live allocation belongs
to the accumulated store (so `conf_free` releases it), and every id
releasable by `conf_free` was numbered before `nextId`. -/
def IStateInv (st : IState) : Prop :=
  (∀ i ∈ st.live, i ∈ conf_free_ids st.arrId st.pairs) ∧
  (∀ i ∈ conf_free_ids st.arrId st.pairs, i < st.nextId)

theorem leakedAfterFree_eq (nid0 kk : Nat) (buf : List Char)
    (live extra : List Nat) (arr : Option Nat) (prs : List IPair) (nid : Nat)
    (h1 : ∀ i ∈ live, i ∈ conf_free_ids arr prs)
    (h2 : ∀ i ∈ conf_free_ids arr prs, i < nid)
    (hfresh : ∀ i ∈ extra, nid ≤ i) :
    leakedAfterFree ⟨nid0, live ++ extra, arr, prs, kk, buf⟩ = extra := by
  simp only [leakedAfterFree, List.filter_append]
  have hl : (live.filter fun i => decide (¬ i ∈ conf_free_ids arr prs)) = [] := by
    rw [List.filter_eq_nil_iff]
    intro a ha
    simpa using h1 a ha
  have he : (extra.filter fun i => decide (¬ i ∈ conf_free_ids arr prs)) = extra := by
    rw [List.filter_eq_self]
    intro a ha
    have hge := hfresh a ha
    simp only [decide_eq_true_eq]
    intro hmem
    exact absurd (h2 a hmem) (by omega)
  rw [hl, he, List.nil_append]

theorem mem_liveStep {live : List Nat} {arrOld : Option Nat} {pid : Nat}
    {extra : List Nat} {rid i : Nat} :
    i ∈ liveStep live arrOld pid extra rid ↔
      (((i ∈ live ∨ i ∈ extra) ∧ ¬ arrOld = some i) ∨ i = rid) ∧ ¬ i = pid := by
  unfold liveStep
  rw [List.mem_filter, List.mem_append, List.mem_filter, List.mem_append,
    List.mem_singleton]
  simp only [decide_eq_true_eq]

theorem mem_conf_free_ids {arr : Option Nat} {prs : List IPair} {i : Nat} :
    i ∈ conf_free_ids arr prs ↔
      (∃ ip ∈ prs, ip.strId = some i) ∨ arr = some i ∨ i = 0 := by
  unfold conf_free_ids
  rw [List.mem_append, List.mem_append, List.mem_filterMap, List.mem_singleton]
  cases arr with
  | none => simp
  | some a => simp [eq_comm, or_assoc]

/-- On any allocation failure the instrumented loop leaks at most the
transient pair of the current line and its string payload. -/
theorem iloop_fail_len (ok : Nat → Bool) :
    ∀ (lines : List (List Char)) (st : IState), IStateInv st →
      ∀ leaked, iloop ok lines st = .fail leaked → leaked.length ≤ 2
  | [], _, _, leaked, h => by simp [iloop] at h
  | line :: rest, st, hInv, leaked, h => by
    obtain ⟨nid, live, arr, prs, kk, buf⟩ := st
    obtain ⟨h1, h2⟩ := hInv
    dsimp only at h1 h2
    rw [iloop] at h
    simp only at h
    cases hres : (processLine kk buf line).2.2 with
    | none =>
      rw [hres] at h
      simp only at h
      exact iloop_fail_len ok rest _ ⟨h1, h2⟩ leaked h
    | some pr =>
      rw [hres] at h
      simp only at h
      have hpres : ∀ (sid : Option Nat) (rid : Nat) (extra : List Nat),
          nid < rid → (∀ j ∈ extra, j = nid ∨ sid = some j) →
          (∀ j, sid = some j → j < rid) →
          IStateInv ⟨rid + 1, liveStep live arr nid extra rid, some rid,
            prs ++ [⟨pr, sid⟩], (processLine kk buf line).1,
            (processLine kk buf line).2.1⟩ := by
        intro sid rid extra hrid hextra hsidlt
        constructor
        · dsimp only
          intro i hi
          rw [mem_liveStep] at hi
          rw [mem_conf_free_ids]
          obtain ⟨hi0, hipid⟩ := hi
          rcases hi0 with ⟨hmem | hmem, harr⟩ | hridq
          · have hold := h1 i hmem
            rw [mem_conf_free_ids] at hold
            rcases hold with ⟨ip, hip, hips⟩ | harr2 | h0
            · exact Or.inl ⟨ip, List.mem_append_left _ hip, hips⟩
            · exact absurd harr2 harr
            · exact Or.inr (Or.inr h0)
          · rcases hextra i hmem with hin | hin
            · exact absurd hin hipid
            · exact Or.inl ⟨⟨pr, sid⟩, List.mem_append_right _ (by simp), hin⟩
          · exact Or.inr (Or.inl (by rw [hridq]))
        · dsimp only
          intro i hi
          rw [mem_conf_free_ids] at hi
          rcases hi with ⟨ip, hip, hips⟩ | harr2 | h0
          · rcases List.mem_append.mp hip with hip | hip
            · have := h2 i (mem_conf_free_ids.mpr (Or.inl ⟨ip, hip, hips⟩))
              omega
            · have hipe : ip = ⟨pr, sid⟩ := by simpa using hip
              subst hipe
              simp only at hips
              have := hsidlt i hips
              omega
          · have : rid = i := by simpa using harr2
            omega
          · omega
      by_cases hp : ok nid = true
      · rw [if_neg (by simp [hp])] at h
        by_cases hstr : pr.type = CONF_STRING
        · rw [if_pos hstr] at h
          by_cases hs : ok (nid + 1) = true
          · rw [if_neg (by simp [hs])] at h
            by_cases hr : ok (nid + 2) = true
            · rw [if_neg (by simp [hr])] at h
              refine iloop_fail_len ok rest _ ?_ leaked h
              exact hpres (some (nid + 1)) (nid + 2) [nid, nid + 1] (by omega)
                (by
                  intro j hj
                  rcases List.mem_cons.mp hj with rfl | hj
                  · exact Or.inl rfl
                  · have : j = nid + 1 := by simpa using hj
                    exact Or.inr (by rw [this]))
                (by
                  intro j hj
                  have : nid + 1 = j := by simpa using hj
                  omega)
            · rw [if_pos (by simp [hr])] at h
              have hleak := leakedAfterFree_eq nid kk buf live [nid, nid + 1]
                arr prs nid h1 h2 (by intro i hi; simp at hi; omega)
              rw [hleak] at h
              cases h
              simp
          · rw [if_pos (by simp [hs])] at h
            have hleak := leakedAfterFree_eq nid kk buf live [nid]
              arr prs nid h1 h2 (by intro i hi; simp at hi; omega)
            rw [hleak] at h
            cases h
            simp
        · rw [if_neg hstr] at h
          by_cases hr : ok (nid + 1) = true
          · rw [if_neg (by simp [hr])] at h
            refine iloop_fail_len ok rest _ ?_ leaked h
            exact hpres none (nid + 1) [nid] (by omega)
              (by
                intro j hj
                have : j = nid := by simpa using hj
                exact Or.inl this)
              (by intro j hj; cases hj)
          · rw [if_pos (by simp [hr])] at h
            have hleak := leakedAfterFree_eq nid kk buf live [nid]
              arr prs nid h1 h2 (by intro i hi; simp at hi; omega)
            rw [hleak] at h
            cases h
            simp
      · rw [if_pos (by simp [hp])] at h
        have hleak := leakedAfterFree_eq nid kk buf live [] arr prs nid
          h1 h2 (by intro i hi; simp at hi)
        have hleak2 : leakedAfterFree ⟨nid, live, arr, prs, kk, buf⟩ = [] := by
          simpa using hleak
        rw [hleak2] at h
        cases h
        simp

/-- A successful instrumented load is exactly the allocation-free parse: no
partially-built store is ever returned as a success. -/
theorem iloop_ok (ok : Nat → Bool) :
    ∀ (lines : List (List Char)) (st : IState) (ps : List conf_pair),
      iloop ok lines st = .ok ps →
      ps = loadLoop lines st.k st.buf (st.pairs.map (fun ip => ip.pair))
  | [], st, ps, h => by
    simp only [iloop, LoadResult.ok.injEq] at h
    rw [loadLoop, ← h]
  | line :: rest, st, ps, h => by
    obtain ⟨nid, live, arr, prs, kk, buf⟩ := st
    rw [iloop] at h
    simp only at h
    dsimp only
    rw [loadLoop]
    cases hres : (processLine kk buf line).2.2 with
    | none =>
      rw [hres] at h
      simp only at h
      have := iloop_ok ok rest _ ps h
      simpa using this
    | some pr =>
      rw [hres] at h
      simp only at h
      by_cases hp : ok nid = true
      · rw [if_neg (by simp [hp])] at h
        by_cases hstr : pr.type = CONF_STRING
        · rw [if_pos hstr] at h
          by_cases hs : ok (nid + 1) = true
          · rw [if_neg (by simp [hs])] at h
            by_cases hr : ok (nid + 2) = true
            · rw [if_neg (by simp [hr])] at h
              have := iloop_ok ok rest _ ps h
              simpa using this
            · rw [if_pos (by simp [hr])] at h
              cases h
          · rw [if_pos (by simp [hs])] at h
            cases h
        · rw [if_neg hstr] at h
          by_cases hr : ok (nid + 1) = true
          · rw [if_neg (by simp [hr])] at h
            have := iloop_ok ok rest _ ps h
            simpa using this
          · rw [if_pos (by simp [hr])] at h
            cases h
      · rw [if_pos (by simp [hp])] at h
        cases h

/-! Claim theorems. -/

/-- C7: calling `conf_free` on a null/absent store performs no release
operation and returns normally (a no-op, not a failure). -/
theorem claim_C7_free_null_noop : conf_free none = ([] : List FreeOp) := rfl

/-- C4: a line whose first character is `'#'` produces no entry regardless
of its remaining content, a line without `'='` produces no entry, and every
other line produces exactly one entry, so a loaded store has exactly one
pair per non-comment line containing a delimiter. -/
theorem claim_C4_comment_and_delimiter :
    (∀ (k : Nat) (buf line : List Char),
      (processLine k buf line).2.2 = none ↔
        (line.head? = some '#' ∨ ¬ '=' ∈ line)) ∧
    (∀ lines : List (List Char), ∃ d, conf_load (some lines) = some d ∧
      d.pairs.length =
        (lines.filter (fun l => decide (¬ l.head? = some '#' ∧ '=' ∈ l))).length) := by
  refine ⟨fun k buf line => processLine_none_iff, fun lines => ⟨_, rfl, ?_⟩⟩
  simpa using loadLoop_length lines 0 [] []

/-- C9: a line whose value is empty after the delimiter (nothing, or only
the line terminator, follows the `'='`) produces a whole-number entry with
value 0, not a String entry holding the empty string: `strtod` consumes
nothing, `end` points at the terminator, and `(long long)0.0 == 0.0`. -/
theorem claim_C9_empty_value_long_zero :
    ∀ (k : Nat) (buf K t : List Char), ¬ '=' ∈ K →
      (K ++ '=' :: t).head? ≠ some '#' → t = [] ∨ t = ['\n'] →
      ∃ kk, (processLine k buf (K ++ '=' :: t)).2.2 =
        some ⟨kk, CONF_LONG, .lval 0⟩ := by
  intro k buf K t hK hH ht
  obtain ⟨kk, h⟩ := processLine_snd_split k buf hK hH
  have hv : inferValue t = (CONF_LONG, conf_value.lval 0) := by
    rcases ht with rfl | rfl <;> decide
  exact ⟨kk, by rw [h, hv]⟩

/-- Witness for C9 at the concrete line `"key=\n"`. -/
theorem claim_C9_witness :
    ∃ kk, (processLine 0 [] ("key".toList ++ '=' :: ['\n'])).2.2 =
      some ⟨kk, CONF_LONG, .lval 0⟩ :=
  claim_C9_empty_value_long_zero 0 [] "key".toList ['\n'] (by decide) (by decide)
    (Or.inr rfl)

/-- C10: only a `'#'` in the very first character position makes a comment;
a line of whitespace followed by `'#'` that contains `'='` still produces an
entry, and (processed at a fresh key offset) the `'#'` is part of the stored
key. -/
theorem claim_C10_indented_hash :
    ∀ (buf sp rest : List Char) (c : Char), sp.head? = some c →
      (∀ x ∈ sp, isspace x = true) → '=' ∈ rest →
      (∀ (k : Nat) (buf' : List Char),
        ((processLine k buf' (sp ++ '#' :: rest)).2.2).isSome = true) ∧
      (∃ pr, (processLine 0 buf (sp ++ '#' :: rest)).2.2 = some pr ∧
        pr.key.head? = some '#') := by
  intro buf sp rest c hc hsp hrest
  obtain ⟨sp', rfl⟩ : ∃ sp', sp = c :: sp' := by
    cases sp with
    | nil => simp at hc
    | cons a l =>
      have ha : a = c := by simpa using hc
      exact ⟨l, by rw [ha]⟩
  have hcws : isspace c = true := hsp c (by simp)
  have hcnh : c ≠ '#' := by
    intro h0
    rw [h0] at hcws
    exact absurd hcws (by decide)
  constructor
  · intro k buf'
    rw [Option.isSome_iff_ne_none, ne_eq, processLine_none_iff]
    rintro (h0 | h0)
    · have : c = '#' := by simpa using h0
      exact hcnh this
    · exact h0 (by simp [hrest])
  · obtain ⟨K, t, rfl, hKt⟩ := first_eq_split hrest
    have hre : (c :: sp') ++ '#' :: (K ++ '=' :: t)
        = ((c :: sp') ++ ('#' :: K)) ++ '=' :: t := by simp
    rw [hre]
    have hk := processLine_key_zero' buf (c :: sp') ('#' :: K) t
      hsp rfl (by decide)
      (by
        intro hm
        rcases List.mem_cons.mp hm with h0 | h0
        · exact absurd h0.symm (by decide)
        · exact hKt h0)
      (by simp [hcnh])
    refine ⟨_, hk, ?_⟩
    have hhd := dropTrailWs_head (l := K) (show isspace '#' = false by decide)
    exact takeWhile_head hhd (by decide)

/-- Witness for C10 at the concrete line `" #foo=bar\\n"`. -/
theorem claim_C10_witness :
    ∃ pr, (processLine 0 [] ([' '] ++ '#' :: "foo=bar\n".toList)).2.2 = some pr ∧
      pr.key.head? = some '#' :=
  (claim_C10_indented_hash [] [' '] "foo=bar\n".toList ' ' rfl (by decide)
    (by decide)).2

/-- C8: every entry of a loaded store has a type among whole-number
(`CONF_LONG`; the loader of this version never assigns `CONF_INT` either),
`CONF_DOUBLE` and `CONF_STRING` — never `CONF_FLOAT` or `CONF_CHAR` — so on
loaded stores the `CONF_FLOAT` branch of `conf_get_float` is unreachable and
`conf_get_float` returns either the default or a stored double converted to
float. -/
theorem claim_C8_loaded_type_invariant :
    ∀ (lines : List (List Char)) (d : conf_data), conf_load (some lines) = some d →
      (∀ p ∈ d.pairs,
        (p.type = CONF_LONG ∨ p.type = CONF_DOUBLE ∨ p.type = CONF_STRING) ∧
        p.type ≠ CONF_FLOAT ∧ p.type ≠ CONF_CHAR ∧ p.type ≠ CONF_INT) ∧
      (∀ (key : List Char) (df : ℚ),
        conf_get_float (some d) (some key) df = df ∨
        ∃ p, conf_get_pair (some d) (some key) = some p ∧ p.type = CONF_DOUBLE ∧
          conf_get_float (some d) (some key) df = floatOfDouble p.value.asDval) := by
  intro lines d hload
  have hd : d = ⟨loadLoop lines 0 [] []⟩ := by
    have : some d = some (⟨loadLoop lines 0 [] []⟩ : conf_data) := hload.symm
    simpa using this
  subst hd
  have htypes := loadLoop_types lines 0 [] [] (by intro p hp; simp at hp)
  constructor
  · intro p hp
    have h := htypes p hp
    refine ⟨h, ?_, ?_, ?_⟩ <;> rcases h with h | h | h <;> simp [h]
  · intro key df
    cases hfind : conf_get_pair (some ⟨loadLoop lines 0 [] []⟩) (some key) with
    | none => left; simp [conf_get_float, hfind]
    | some p =>
      have hp : p ∈ loadLoop lines 0 [] [] := by
        by_cases hnil : loadLoop lines 0 [] [] = ([] : List conf_pair)
        · simp [conf_get_pair, hnil] at hfind
        · simp only [conf_get_pair, if_neg hnil] at hfind
          exact List.mem_of_find?_eq_some hfind
      rcases htypes p hp with h | h | h
      · left; simp [conf_get_float, hfind, h]
      · right; exact ⟨p, rfl, h, by simp [conf_get_float, hfind, h]⟩
      · left; simp [conf_get_float, hfind, h]

/-- Witness for C8 on the loaded store of `"a=1.5\n"`: the single entry is a
double and `conf_get_float` returns its float conversion. -/
theorem claim_C8_witness :
    conf_get_float (some (⟨[⟨"a".toList, CONF_DOUBLE, .dval (Rat.divInt 3 2)⟩]⟩ :
        conf_data)) (some "a".toList) 0
      = floatOfDouble (conf_value.dval (Rat.divInt 3 2)).asDval := by
  have h := (claim_C8_loaded_type_invariant ["a=1.5\n".toList]
      ⟨[⟨"a".toList, CONF_DOUBLE, .dval (Rat.divInt 3 2)⟩]⟩ (by decide)).2
      "a".toList 0
  rcases h with h | ⟨p, hp, htype, hval⟩
  · exact absurd h (by decide)
  · have hpe : p = ⟨"a".toList, CONF_DOUBLE, .dval (Rat.divInt 3 2)⟩ := by
      have : conf_get_pair (some (⟨[⟨"a".toList, CONF_DOUBLE,
          .dval (Rat.divInt 3 2)⟩]⟩ : conf_data)) (some "a".toList)
          = some ⟨"a".toList, CONF_DOUBLE, .dval (Rat.divInt 3 2)⟩ := by decide
      rw [this] at hp
      simpa using hp.symm
    rw [hpe] at hval
    exact hval

/-- C5: `conf_get_pair` is an exact, case-sensitive comparison scanning in
insertion order and returning the first match; it returns none for a missing
store, a missing key argument, an empty store, and when no stored key
matches. -/
theorem claim_C5_get_pair_lookup :
    (∀ key, conf_get_pair none key = none) ∧
    (∀ data, conf_get_pair data none = none) ∧
    (∀ key, conf_get_pair (some ⟨[]⟩) (some key) = none) ∧
    (∀ (d : conf_data) (key : List Char), (∀ p ∈ d.pairs, p.key ≠ key) →
      conf_get_pair (some d) (some key) = none) ∧
    (∀ (d : conf_data) (key : List Char) (i : Nat) (hi : i < d.pairs.length),
      (d.pairs.get ⟨i, hi⟩).key = key →
      (∀ j (hj : j < i), (d.pairs.get ⟨j, Nat.lt_trans hj hi⟩).key ≠ key) →
      conf_get_pair (some d) (some key) = some (d.pairs.get ⟨i, hi⟩)) := by
  refine ⟨fun key => rfl, fun data => ?_, fun key => by simp [conf_get_pair],
    fun d key h => ?_, fun d key i hi hkey hfirst => ?_⟩
  · cases data <;> rfl
  · by_cases hnil : d.pairs = []
    · simp [conf_get_pair, hnil]
    · simp only [conf_get_pair, if_neg hnil]
      rw [List.find?_eq_none]
      intro p hp
      simpa using h p hp
  · have hne : d.pairs ≠ [] := by
      intro h0
      rw [h0] at hi
      simp at hi
    simp only [conf_get_pair, if_neg hne]
    exact find?_first_match d.pairs key i hi hkey hfirst

/-- Witness for C5 on a store with a duplicated key: the earliest-inserted
matching entry is returned. -/
theorem claim_C5_witness :
    conf_get_pair (some (⟨[⟨"a".toList, CONF_LONG, .lval 1⟩,
        ⟨"a".toList, CONF_LONG, .lval 2⟩]⟩ : conf_data)) (some "a".toList)
      = some ⟨"a".toList, CONF_LONG, .lval 1⟩ := by
  have h := claim_C5_get_pair_lookup.2.2.2.2
    ⟨[⟨"a".toList, CONF_LONG, .lval 1⟩, ⟨"a".toList, CONF_LONG, .lval 2⟩]⟩
    "a".toList 0 (by decide) (by decide) (fun j hj => absurd hj (Nat.not_lt_zero j))
  exact h

/-- C6 counterexample: with the fourth allocation (the `realloc` that would
append the pair parsed from `"a=b c\\n"`) failing, the loader returns the
failure indicator after `conf_free(data)`, but allocations 1 (the transient
`conf_pair`) and 2 (its string payload) remain unreleased: "releases
everything allocated so far" is refuted — the transient pair is not
reachable from the store `conf_free` walks. -/
theorem claim_C6_counterexample :
    iload (fun n => decide (¬ n = 3)) (some ["a=b c\n".toList]) =
      LoadResult.fail [1, 2] ∧ ([1, 2] : List Nat) ≠ [] := by decide

/-- C6 amended: an unopenable file yields the failure indicator and never a
store; a store returned by `load` is always the complete parse of the file
(never partial); and on any allocation failure the failure indicator is
returned with the accumulated store released via the teardown routine,
leaking at most the in-flight pair of the current line and its string
payload (at most two allocations). -/
theorem claim_C6_load_failure :
    conf_load none = none ∧
    (∀ ok, iload ok none = LoadResult.ioError) ∧
    (∀ (ok : Nat → Bool) (lines : List (List Char)) (leaked : List Nat),
      iload ok (some lines) = .fail leaked → leaked.length ≤ 2) ∧
    (∀ (ok : Nat → Bool) (lines : List (List Char)) (ps : List conf_pair),
      iload ok (some lines) = .ok ps → conf_load (some lines) = some ⟨ps⟩) := by
  refine ⟨rfl, fun ok => rfl, ?_, ?_⟩
  · intro ok lines leaked h
    rw [iload] at h
    by_cases h0 : ok 0 = true
    · rw [if_neg (by simp [h0])] at h
      refine iloop_fail_len ok lines _ ⟨?_, ?_⟩ leaked h
      · intro i hi
        have hi0 : i = 0 := by simpa using hi
        subst hi0
        simp [conf_free_ids]
      · intro i hi
        simp [conf_free_ids] at hi
        simp [hi]
    · rw [if_pos (by simp [h0])] at h
      cases h
      simp
  · intro ok lines ps h
    rw [iload] at h
    by_cases h0 : ok 0 = true
    · rw [if_neg (by simp [h0])] at h
      have hps := iloop_ok ok lines _ ps h
      simp only [List.map_nil] at hps
      rw [conf_load, hps]
    · rw [if_pos (by simp [h0])] at h
      simp at h

/-- Witness for the amended C6: the concrete failing load of
`claim_C6_counterexample` leaks exactly the two transient allocations,
within the proved bound. -/
theorem claim_C6_witness :
    conf_load none = none ∧ ([1, 2] : List Nat).length ≤ 2 := by
  refine ⟨claim_C6_load_failure.1, ?_⟩
  exact claim_C6_load_failure.2.2.1 (fun n => decide (¬ n = 3))
    ["a=b c\n".toList] [1, 2] (by decide)

/-- C1 counterexample: on the loaded store of `"pi=2.5\n"` the stored entry
is `CONF_DOUBLE`-typed — not the `CONF_FLOAT` type `conf_get_float`
requests — yet `conf_get_float` returns the converted stored value `5/2`,
not the caller-supplied default `0`.  This refutes the claim that every
typed accessor returns the default whenever the stored variant does not
exactly match the requested type, with no cross-type coercion. -/
theorem claim_C1_counterexample :
    conf_load (some ["pi=2.5\n".toList]) =
      some ⟨[⟨"pi".toList, CONF_DOUBLE, .dval (Rat.divInt 5 2)⟩]⟩ ∧
    conf_get_float (conf_load (some ["pi=2.5\n".toList])) (some "pi".toList) 0
      = Rat.divInt 5 2 ∧
    CONF_DOUBLE ≠ CONF_FLOAT ∧ (Rat.divInt 5 2 : ℚ) ≠ 0 ∧
    conf_get_int (conf_load (some ["n=42\n".toList])) (some "n".toList) (-1)
      = 42 ∧
    conf_get_pair (conf_load (some ["n=42\n".toList])) (some "n".toList)
      = some ⟨"n".toList, CONF_LONG, .lval 42⟩ ∧
    CONF_LONG ≠ CONF_INT := by decide

/-- C1 amended: the accessors return the caller-supplied default when the
key is absent; on a present entry, `conf_get_long`, `conf_get_double` and
`conf_get_string` return the stored value exactly on an exact type match
and the default otherwise, while `conf_get_int` additionally returns the
`(int)`-cast of a `CONF_LONG` entry and `conf_get_float` additionally
returns the `(float)`-conversion of a `CONF_DOUBLE` entry (the two
cross-type coercions the code performs). -/
theorem claim_C1_accessor_dispatch :
    ∀ (data : Option conf_data) (key : Option (List Char))
      (di dl : Int) (df dd : ℚ) (ds : List Char),
    (conf_get_pair data key = none →
      conf_get_int data key di = di ∧ conf_get_long data key dl = dl ∧
      conf_get_float data key df = df ∧ conf_get_double data key dd = dd ∧
      conf_get_string data key ds = ds) ∧
    (∀ p, conf_get_pair data key = some p →
      (conf_get_int data key di =
        if p.type = CONF_INT then p.value.asIval
        else if p.type = CONF_LONG then longToInt p.value.asLval else di) ∧
      (conf_get_long data key dl =
        if p.type = CONF_LONG then p.value.asLval else dl) ∧
      (conf_get_float data key df =
        if p.type = CONF_FLOAT then p.value.asFval
        else if p.type = CONF_DOUBLE then floatOfDouble p.value.asDval else df) ∧
      (conf_get_double data key dd =
        if p.type = CONF_DOUBLE then p.value.asDval else dd) ∧
      (conf_get_string data key ds =
        if p.type = CONF_STRING then p.value.asStr else ds)) := by
  intro data key di dl df dd ds
  constructor
  · intro h
    refine ⟨?_, ?_, ?_, ?_, ?_⟩ <;>
      simp [conf_get_int, conf_get_long, conf_get_float, conf_get_double,
        conf_get_string, h]
  · intro p hp
    refine ⟨?_, ?_, ?_, ?_, ?_⟩ <;>
      simp only [conf_get_int, conf_get_long, conf_get_float, conf_get_double,
        conf_get_string, hp] <;>
      cases p.type <;> simp

/-- Witness for the amended C1 on a concrete double entry requested via
`conf_get_float`. -/
theorem claim_C1_witness :
    conf_get_float (some (⟨[⟨"pi".toList, CONF_DOUBLE,
        .dval (Rat.divInt 5 2)⟩]⟩ : conf_data)) (some "pi".toList) 0
      = floatOfDouble (Rat.divInt 5 2) := by
  have h := (claim_C1_accessor_dispatch
      (some ⟨[⟨"pi".toList, CONF_DOUBLE, .dval (Rat.divInt 5 2)⟩]⟩)
      (some "pi".toList) 0 0 0 0 []).2
    ⟨"pi".toList, CONF_DOUBLE, .dval (Rat.divInt 5 2)⟩ (by decide)
  simpa [conf_value.asDval] using h.2.2.1

/-- C2 counterexample: for the line `"x=42 \n"` the trimmed value is
`"42"` — a syntactically complete number (`strtod` consumes precisely its
two characters) with zero fractional part — yet the loaded entry is a
`CONF_STRING` storing `"42"`, not a whole-number entry: the numeric parse
runs on the raw text after the `'='`, so the trailing space makes `end`
miss the terminator.  This refutes the claim that every line whose trimmed
value fully parses as a whole number is classified as a whole-number type. -/
theorem claim_C2_counterexample :
    conf_load (some ["x=42 \n".toList]) =
      some ⟨[⟨"x".toList, CONF_STRING, .str "42".toList⟩]⟩ ∧
    (strtod "42".toList).2 = "42".toList.length ∧
    (strtod "42".toList).1 = 42 ∧ ((42 : ℚ)).den = 1 ∧
    CONF_STRING ≠ CONF_LONG := by decide

/-- C2 amended: classification applies the numeric parse to the raw value
text after the delimiter.  When `end` lands on the line terminator the
entry is whole-number (`CONF_LONG`, storing the integer) exactly when the
parsed value has zero fractional part, and `CONF_DOUBLE` otherwise; when
`end` does not land on the terminator (in particular when trailing
whitespace follows a number) the entry is a `CONF_STRING` storing the
trimmed text. -/
theorem claim_C2_classification :
    ∀ (k : Nat) (buf K t : List Char), ¬ '=' ∈ K →
      (K ++ '=' :: t).head? ≠ some '#' →
    ((t.getD (strtod t).2 '\x00' = '\n' ∨ t.getD (strtod t).2 '\x00' = '\x00') →
      ((strtod t).1.den = 1 →
        ∃ kk, (processLine k buf (K ++ '=' :: t)).2.2 =
          some ⟨kk, CONF_LONG, .lval (strtod t).1.num⟩) ∧
      ((strtod t).1.den ≠ 1 →
        ∃ kk, (processLine k buf (K ++ '=' :: t)).2.2 =
          some ⟨kk, CONF_DOUBLE, .dval (strtod t).1⟩)) ∧
    (∀ v, t = v ++ ['\n'] → ¬ '\x00' ∈ v →
      v.dropWhile (fun ch => isspace ch || ch == '=') ≠ [] →
      v.length + 1 ≤ MAX_VAL_LEN →
      ¬ (t.getD (strtod t).2 '\x00' = '\n' ∨ t.getD (strtod t).2 '\x00' = '\x00') →
      ∃ kk, (processLine k buf (K ++ '=' :: t)).2.2 =
        some ⟨kk, CONF_STRING, .str (specTrimValue v)⟩) := by
  intro k buf K t hK hH
  obtain ⟨kk, h⟩ := processLine_snd_split k buf hK hH
  constructor
  · intro hend
    have hv := inferValue_whole hend
    constructor
    · intro hden
      exact ⟨kk, by rw [h, hv, if_pos hden]⟩
    · intro hden
      exact ⟨kk, by rw [h, hv, if_neg hden]⟩
  · intro v hteq hnul hstop hlen hend
    subst hteq
    have hv := inferValue_string hnul hstop hlen hend
    exact ⟨kk, by rw [h, hv]⟩

/-- Witness for the amended C2: `"k=42.0\n"` loads as `CONF_LONG 42`,
`"k=42.5\n"` as `CONF_DOUBLE 85/2`, and `"k=42 \n"` as `CONF_STRING "42"`. -/
theorem claim_C2_witness :
    (∃ kk, (processLine 0 [] ("k".toList ++ '=' :: "42.0\n".toList)).2.2 =
      some ⟨kk, CONF_LONG, .lval 42⟩) ∧
    (∃ kk, (processLine 0 [] ("k".toList ++ '=' :: "42.5\n".toList)).2.2 =
      some ⟨kk, CONF_DOUBLE, .dval (Rat.divInt 85 2)⟩) ∧
    (∃ kk, (processLine 0 [] ("k".toList ++ '=' :: ("42 ".toList ++ ['\n']))).2.2 =
      some ⟨kk, CONF_STRING, .str (specTrimValue "42 ".toList)⟩) := by
  refine ⟨?_, ?_, ?_⟩
  · obtain ⟨kk, h⟩ := ((claim_C2_classification 0 [] "k".toList "42.0\n".toList
      (by decide) (by decide)).1 (by decide)).1 (by decide)
    have hnum : (strtod "42.0\n".toList).1.num = 42 := by decide
    exact ⟨kk, by rw [h, hnum]⟩
  · obtain ⟨kk, h⟩ := ((claim_C2_classification 0 [] "k".toList "42.5\n".toList
      (by decide) (by decide)).1 (by decide)).2 (by decide)
    have hq : (strtod "42.5\n".toList).1 = Rat.divInt 85 2 := by decide
    exact ⟨kk, by rw [h, hq]⟩
  · exact (claim_C2_classification 0 [] "k".toList ("42 ".toList ++ ['\n'])
      (by decide) (by decide)).2 "42 ".toList rfl (by decide) (by decide)
      (by decide) (by decide)

/-- C3 counterexample: with key text `"key"` and value text `"42"`, the
padded line `"  key  =  42  \n"` loads as a `CONF_STRING` entry storing
`"42"`, while the unpadded `"key=42\n"` loads as a `CONF_LONG` entry
storing `42`: the stored values (and types) differ, refuting the claim that
padding never changes the stored entry for values of every inferred type.
(The keys are identical — key trimming does hold.) -/
theorem claim_C3_counterexample :
    conf_load (some ["  key  =  42  \n".toList]) =
      some ⟨[⟨"key".toList, CONF_STRING, .str "42".toList⟩]⟩ ∧
    conf_load (some ["key=42\n".toList]) =
      some ⟨[⟨"key".toList, CONF_LONG, .lval 42⟩]⟩ ∧
    (conf_value.str "42".toList ≠ conf_value.lval 42 ∧
      CONF_STRING ≠ CONF_LONG) := by decide

/-- C3 amended: whitespace padding around the key never changes the stored
entry — the padded and unpadded lines with the same raw value text produce
identical key and value (first conjunct) — and whitespace padding around
the value yields the same stored entry exactly for values the code
classifies as strings on both sides (second conjunct); for a value text
that fully parses as a number, padding changes the classification to
`CONF_STRING` (the counterexample). -/
theorem claim_C3_padding :
    (∀ (buf sp1 kt sp2 t : List Char) (c0 cl : Char),
      (∀ c ∈ sp1, isspace c = true) → (∀ c ∈ sp2, isspace c = true) →
      kt.head? = some c0 → isspace c0 = false → c0 ≠ '#' →
      kt.getLast? = some cl → isspace cl = false →
      ¬ '\x00' ∈ kt → ¬ '=' ∈ kt →
      (processLine 0 buf ((sp1 ++ kt ++ sp2) ++ '=' :: t)).2.2 =
        (processLine 0 buf (kt ++ '=' :: t)).2.2) ∧
    (∀ (buf kt vt : List Char) (c0 cl v0 vl : Char),
      kt.head? = some c0 → isspace c0 = false → c0 ≠ '#' →
      kt.getLast? = some cl → isspace cl = false →
      ¬ '\x00' ∈ kt → ¬ '=' ∈ kt →
      vt.head? = some v0 → isspace v0 = false → v0 ≠ '=' →
      vt.getLast? = some vl → isspace vl = false →
      ¬ '\x00' ∈ vt → vt.length + 5 ≤ MAX_VAL_LEN →
      ¬ ((([' ', ' '] ++ vt ++ [' ', ' ']) ++ ['\n']).getD
          (strtod (([' ', ' '] ++ vt ++ [' ', ' ']) ++ ['\n'])).2 '\x00' = '\n' ∨
        (([' ', ' '] ++ vt ++ [' ', ' ']) ++ ['\n']).getD
          (strtod (([' ', ' '] ++ vt ++ [' ', ' ']) ++ ['\n'])).2 '\x00' = '\x00') →
      ¬ ((vt ++ ['\n']).getD (strtod (vt ++ ['\n'])).2 '\x00' = '\n' ∨
        (vt ++ ['\n']).getD (strtod (vt ++ ['\n'])).2 '\x00' = '\x00') →
      (processLine 0 buf (kt ++ '=' :: (([' ', ' '] ++ vt ++ [' ', ' ']) ++ ['\n']))).2.2 =
        some ⟨kt, CONF_STRING, .str vt⟩ ∧
      (processLine 0 buf (kt ++ '=' :: (vt ++ ['\n']))).2.2 =
        some ⟨kt, CONF_STRING, .str vt⟩) := by
  constructor
  · intro buf sp1 kt sp2 t c0 cl h1 h2 hhd hhd' hc0 hlast hlast' hnul hkeq
    obtain ⟨kt', rfl⟩ : ∃ kt', kt = c0 :: kt' := by
      cases kt with
      | nil => simp at hhd
      | cons a l =>
        have ha : a = c0 := by simpa using hhd
        exact ⟨l, by rw [ha]⟩
    have hHu : ((c0 :: kt') ++ '=' :: t).head? ≠ some '#' := by
      simpa using hc0
    have hHp : ((sp1 ++ (c0 :: kt') ++ sp2) ++ '=' :: t).head? ≠ some '#' := by
      cases sp1 with
      | nil => simpa using hc0
      | cons a l =>
        have haws : isspace a = true := h1 a (by simp)
        have : a ≠ '#' := by
          intro h0
          rw [h0] at haws
          exact absurd haws (by decide)
        simpa using this
    have hp1 := processLine_key_zero buf sp1 (c0 :: kt') sp2 t h1 h2 hhd hhd'
      hlast hlast' hnul hkeq hHp
    have hp2 := processLine_key_zero buf [] (c0 :: kt') [] t (by simp) (by simp)
      hhd hhd' hlast hlast' hnul hkeq (by simpa using hc0)
    rw [hp1]
    have hre : ([] ++ (c0 :: kt') ++ []) ++ '=' :: t = (c0 :: kt') ++ '=' :: t := by
      simp
    rw [hre] at hp2
    rw [hp2]
  · intro buf kt vt c0 cl v0 vl hhd hhd' hc0 hlast hlast' hnul hkeq
      hvhd hvhd' hv0 hvlast hvlast' hvnul hvlen hendp hendu
    obtain ⟨vt', rfl⟩ : ∃ vt', vt = v0 :: vt' := by
      cases vt with
      | nil => simp at hvhd
      | cons a l =>
        have ha : a = v0 := by simpa using hvhd
        exact ⟨l, by rw [ha]⟩
    have hHu : (kt ++ '=' :: ((v0 :: vt') ++ ['\n'])).head? ≠ some '#' := by
      cases kt with
      | nil => simp at hhd
      | cons a l =>
        have ha : a = c0 := by simpa using hhd
        subst ha
        simpa using hc0
    have hHp : (kt ++ '=' ::
        (([' ', ' '] ++ (v0 :: vt') ++ [' ', ' ']) ++ ['\n'])).head? ≠ some '#' := by
      cases kt with
      | nil => simp at hhd
      | cons a l =>
        have ha : a = c0 := by simpa using hhd
        subst ha
        simpa using hc0
    have hP0 : (isspace v0 || v0 == '=') = false := by
      simp [hvhd', hv0]
    have hdropu : (v0 :: vt').dropWhile (fun ch => isspace ch || ch == '=')
        = v0 :: vt' := List.dropWhile_cons_of_neg (by simp [hP0])
    have hself : dropTrailWs (v0 :: vt') = v0 :: vt' :=
      dropTrailWs_eq_self hvlast hvlast'
    -- the trimmed padded value and the trimmed unpadded value are both `vt`
    have hspec_u : specTrimValue (v0 :: vt') = v0 :: vt' := by
      rw [specTrimValue, hdropu, hself]
    have hdropp : ([' ', ' '] ++ (v0 :: vt') ++ [' ', ' ']).dropWhile
        (fun ch => isspace ch || ch == '=') = (v0 :: vt') ++ [' ', ' '] := by
      simp only [List.append_assoc, List.cons_append, List.nil_append]
      have hsp : isspace ' ' = true := by decide
      simp [List.dropWhile_cons, hP0, hsp]
    have hspec_p : specTrimValue ([' ', ' '] ++ (v0 :: vt') ++ [' ', ' '])
        = v0 :: vt' := by
      rw [specTrimValue, hdropp,
        dropTrailWs_append_all (l := v0 :: vt')
          (by intro c hc; simp at hc; simp [hc, isspace]),
        hself]
    constructor
    · have hk := processLine_key_zero buf [] kt []
        (([' ', ' '] ++ (v0 :: vt') ++ [' ', ' ']) ++ ['\n'])
        (by simp) (by simp) hhd hhd' hlast hlast' hnul hkeq
        (by simpa using hHp)
      have hre : ([] ++ kt ++ []) ++ '=' ::
          (([' ', ' '] ++ (v0 :: vt') ++ [' ', ' ']) ++ ['\n'])
          = kt ++ '=' :: (([' ', ' '] ++ (v0 :: vt') ++ [' ', ' ']) ++ ['\n']) := by
        simp
      rw [hre] at hk
      have hv := inferValue_string (v := [' ', ' '] ++ (v0 :: vt') ++ [' ', ' '])
        (by
          intro hm
          simp only [List.mem_append] at hm
          rcases hm with (hm | hm) | hm
          · simp at hm
          · exact hvnul hm
          · simp at hm)
        (by rw [hdropp]; simp)
        (by
          simp only [List.length_append, List.length_cons, List.length_nil] at hvlen ⊢
          omega)
        hendp
      rw [hk, hv, hspec_p]
    · have hk := processLine_key_zero buf [] kt [] ((v0 :: vt') ++ ['\n'])
        (by simp) (by simp) hhd hhd' hlast hlast' hnul hkeq
        (by simpa using hHu)
      have hre : ([] ++ kt ++ []) ++ '=' :: ((v0 :: vt') ++ ['\n'])
          = kt ++ '=' :: ((v0 :: vt') ++ ['\n']) := by simp
      rw [hre] at hk
      have hv := inferValue_string (v := v0 :: vt') hvnul
        (by rw [hdropu]; simp)
        (by omega)
        hendu
      rw [hk, hv, hspec_u]

/-- Witness for the amended C3 with key `"key"` and value `"a b"`: padding
the key leaves even a numeric entry unchanged, and padding a
string-classified value leaves the stored entry unchanged. -/
theorem claim_C3_witness :
    (processLine 0 [] (([' ', ' '] ++ "key".toList ++ [' ', ' ']) ++ '=' :: "42\n".toList)).2.2 =
      (processLine 0 [] ("key".toList ++ '=' :: "42\n".toList)).2.2 ∧
    (processLine 0 []
        ("key".toList ++ '=' :: (([' ', ' '] ++ "a b".toList ++ [' ', ' ']) ++ ['\n']))).2.2 =
      some ⟨"key".toList, CONF_STRING, .str "a b".toList⟩ ∧
    (processLine 0 [] ("key".toList ++ '=' :: ("a b".toList ++ ['\n']))).2.2 =
      some ⟨"key".toList, CONF_STRING, .str "a b".toList⟩ := by
  refine ⟨?_, ?_⟩
  · exact claim_C3_padding.1 [] [' ', ' '] "key".toList [' ', ' '] "42\n".toList 'k' 'y'
      (by decide) (by decide) (by decide) (by decide) (by decide) (by decide)
      (by decide) (by decide) (by decide)
  · exact claim_C3_padding.2 [] "key".toList "a b".toList 'k' 'y' 'a' 'b'
      (by decide) (by decide) (by decide) (by decide) (by decide) (by decide)
      (by decide) (by decide) (by decide) (by decide) (by decide) (by decide)
      (by decide) (by decide) (by decide) (by decide)

end Libconf
